import Mathlib

/-!
Verification development for `scripts/build_index.py`: a batch job that walks a
directory tree of Markdown files, parses YAML front matter, resolves article
fields, and writes one metadata row plus one full-text row per file into a
freshly rebuilt store.

Text is modelled as `List Char` (Python `str`, character for character).
Python values coming out of the YAML loader are modelled by `Yaml`; the YAML
library itself is a parameter (`YLoader`) of every function that calls it,
since it is external to the repository.
-/

namespace BuildIndex

/-- Python `\s` on the ASCII range (space, tab, newline, carriage return,
vertical tab, form feed). -/
def pyWs (c : Char) : Bool :=
  c == ' ' || c == '\t' || c == '\n' || c == '\r' ||
  c == Char.ofNat 11 || c == Char.ofNat 12

/-- Length of the maximal whitespace run at the front of `s`. -/
def wsLen : List Char → Nat
  | [] => 0
  | c :: cs => if pyWs c then wsLen cs + 1 else 0

def dashes3 : List Char := "---".data

/-- The literal `"\n---"` that opens the closing delimiter of the pattern. -/
def nlClose : List Char := '\n' :: dashes3

/-- Largest index `k ≤ b` with `s[k] = '\n'`; models the backtracking of the
greedy `\s*` that must leave a `\n` for the following literal. -/
def searchNl (s : List Char) : Nat → Option Nat
  | 0 => if s.get? 0 = some '\n' then some 0 else none
  | b + 1 => if s.get? (b + 1) = some '\n' then some (b + 1) else searchNl s b

/-- Match `\s*\n` (greedy `\s*`, backtracking) against a prefix of `r`;
returns the remainder after the consumed `\n`. -/
def tryClose (r : List Char) : Option (List Char) :=
  match searchNl r (wsLen r) with
  | some b => some (r.drop (b + 1))
  | none => none

/-- Advance the lazy group `(.*?)` one character at a time, at each position
first trying to match the closing `\n---\s*\n`.  Returns the group text and
the remainder after the whole closing delimiter. -/
def findClose : List Char → Option (List Char × List Char)
  | [] => none
  | c :: cs =>
    match (if (c :: cs).take 4 = nlClose then tryClose ((c :: cs).drop 4) else none) with
    | some rem => some ([], rem)
    | none =>
      match findClose cs with
      | some (g, rem) => some (c :: g, rem)
      | none => none

/-- Choose the split of the opening `\s*\n` (the `\s*` is greedy, so the
whitespace count `a` is tried from largest to smallest), then hand over to
`findClose`. -/
def openAux (s : List Char) : Nat → Option (List Char × List Char)
  | 0 => if s.get? 0 = some '\n' then findClose (s.drop 1) else none
  | a + 1 =>
    match (if s.get? (a + 1) = some '\n' then findClose (s.drop (a + 2)) else none) with
    | some r => some r
    | none => openAux s a

/-- Model of `re.compile(r"^---\s*\n(.*?)\n---\s*\n", re.DOTALL).match(text)`:
`some (group1, text-after-match)` on success, `none` when the anchored pattern
does not match. -/
def fmMatch (text : List Char) : Option (List Char × List Char) :=
  if text.take 3 = dashes3 then
    openAux (text.drop 3) (wsLen (text.drop 3))
  else none

/-- Values produced by the YAML loader, restricted to the shapes the script
manipulates: null, strings, integers, and sequences of strings.  (Sequences
with non-string elements make the script raise `TypeError` at the
whitespace-join and are outside the model.) -/
inductive Yaml where
  | null
  | str (s : List Char)
  | int (n : Int)
  | list (xs : List (List Char))
deriving DecidableEq, Repr

/-- A parsed front-matter mapping, in document order (Python `dict`). -/
abbrev Meta := List (List Char × Yaml)

/-- Model of `yaml.safe_load`: `none` is a `yaml.YAMLError`; `some none` is a
successful parse whose result is not a mapping; `some (some m)` is a mapping. -/
abbrev YLoader := List Char → Option (Option Meta)

/-- Model of `parse_frontmatter`: on a regex match, load the group as YAML
(empty mapping when the result is not a dict, whole original text restored on
a YAML error); without a match, empty mapping and the original text. -/
def parse_frontmatter (yload : YLoader) (text : List Char) : Meta × List Char :=
  match fmMatch text with
  | some (y, content) =>
    match yload y with
    | some od => (od.getD [], content)
    | none => ([], text)
  | none => ([], text)

/-- First (and only, YAML keys being unique) binding of `k` in the mapping. -/
def lookupMeta (m : Meta) (k : List Char) : Option Yaml :=
  (m.find? (fun p => p.1 == k)).map (fun p => p.2)

/-- Python `dict.get(k, d)`. -/
def metaGet (m : Meta) (k : List Char) (d : Yaml) : Yaml :=
  (lookupMeta m k).getD d

/-- Python truthiness of the modelled values. -/
def truthy : Yaml → Bool
  | .null => false
  | .str s => !s.isEmpty
  | .int n => n != 0
  | .list xs => !xs.isEmpty

/-- Python `str()` of the modelled values (string `repr` inside lists uses
single quotes; escaping of quote characters inside elements is elided). -/
def pyStr : Yaml → List Char
  | .null => "None".data
  | .str s => s
  | .int n => (toString n).data
  | .list xs =>
    '[' :: List.intercalate (", ".data) (xs.map (fun s => Char.ofNat 39 :: s ++ [Char.ofNat 39])) ++ [']']

/-- JSON string escaping restricted to quote and backslash (control and
non-ASCII escapes elided; no witness uses them). -/
def jsonEscape (s : List Char) : List Char :=
  (s.map (fun c => if c == '"' || c == '\\' then ['\\', c] else [c])).flatten

def jsonQuote (s : List Char) : List Char := '"' :: jsonEscape s ++ ['"']

/-- Python `json.dumps` on the modelled values. -/
def jsonDumps : Yaml → List Char
  | .null => "null".data
  | .str s => jsonQuote s
  | .int n => (toString n).data
  | .list xs => '[' :: List.intercalate (", ".data) (xs.map jsonQuote) ++ [']']

/-- Python `json.dumps` on the raw front-matter mapping. -/
def jsonOfMeta (m : Meta) : List Char :=
  Char.ofNat 123 ::
    List.intercalate (", ".data)
      (m.map (fun p => jsonQuote p.1 ++ ": ".data ++ jsonDumps p.2)) ++
    [Char.ofNat 125]

/-- Python `str.splitlines` restricted to `'\n'` separators (no document in
scope uses the exotic line terminators). -/
def splitlines : List Char → List (List Char)
  | [] => []
  | c :: cs =>
    if c = '\n' then [] :: splitlines cs
    else
      match splitlines cs with
      | [] => [[c]]
      | l :: ls => (c :: l) :: ls

/-- Python `str.strip()`. -/
def pyStrip (s : List Char) : List Char :=
  ((s.dropWhile pyWs).reverse.dropWhile pyWs).reverse

def titleKey : List Char := "title".data
def idKey : List Char := "id".data
def authorKey : List Char := "author".data
def summaryKey : List Char := "summary".data
def tagsKey : List Char := "tags".data

/-- The `for line in content.splitlines(): if line.startswith("# ")` scan:
text of the first level-1 heading line, stripped. -/
def findH1 : List (List Char) → Option (List Char)
  | [] => none
  | l :: ls => if l.take 2 = '#' :: [' '] then some (pyStrip (l.drop 2)) else findH1 ls

/-- Title resolution in `read_markdown`: the front-matter value when truthy,
else the first `"# "` heading of the body, else the filename stem. -/
def resolveTitle (meta : Meta) (stem : List Char) (content : List Char) : Yaml :=
  let t := metaGet meta titleKey .null
  if truthy t then t
  else
    match findH1 (splitlines content) with
    | some h => .str h
    | none => .str stem

/-- The dictionary `read_markdown` returns. -/
structure MdData where
  idv : Yaml
  title : Yaml
  author : Yaml
  summary : Yaml
  tags : Yaml
  content : List Char
  meta : Meta
deriving DecidableEq, Repr

/-- Model of `read_markdown` (the file's text and stem stand in for the path;
`read_text` decoding is outside the model). -/
def read_markdown (yload : YLoader) (stem : List Char) (text : List Char) : MdData :=
  let pr := parse_frontmatter yload text
  { idv := metaGet pr.1 idKey .null
    title := resolveTitle pr.1 stem pr.2
    author := metaGet pr.1 authorKey (.str [])
    summary := metaGet pr.1 summaryKey (.str [])
    tags := metaGet pr.1 tagsKey (.list [])
    content := pr.2
    meta := pr.1 }

/-- One file the walker yields: root-relative path components plus raw text. -/
structure FileInput where
  rel : List (List Char)
  text : List Char
deriving DecidableEq, Repr

def fileNameOf (f : FileInput) : List Char := f.rel.getLast?.getD []

/-- Largest index `i` with `n[i] = '.'`, `0 < i < n.length - 1`
(the dot `pathlib` treats as starting the suffix). -/
def lastDot (n : List Char) : Nat → Option Nat
  | 0 => none
  | i + 1 =>
    if n.get? (i + 1) = some '.' && decide (i + 2 < n.length) then some (i + 1)
    else lastDot n i

/-- `pathlib.Path.stem` of a file name. -/
def stemOf (n : List Char) : List Char :=
  match lastDot n n.length with
  | some i => n.take i
  | none => n

/-- `md.relative_to(compendium_dir).as_posix()`. -/
def relPathOf (f : FileInput) : List Char := List.intercalate ['/'] f.rel

def mdOf (yload : YLoader) (f : FileInput) : MdData :=
  read_markdown yload (stemOf (fileNameOf f)) f.text

/-- `str(data.get("id") or rel_path)`. -/
def articleIdFun (idv : Yaml) (rel : List Char) : List Char :=
  pyStr (if truthy idv then idv else .str rel)

def articleIdOf (yload : YLoader) (f : FileInput) : List Char :=
  articleIdFun (mdOf yload f).idv (relPathOf f)

/-- `json.dumps(data["tags"]) if data["tags"] else "[]"`. -/
def tagsJsonOf (t : Yaml) : List Char :=
  if truthy t then jsonDumps t else "[]".data

/-- `" ".join(data["tags"]) if isinstance(data["tags"], list) else str(data["tags"])`. -/
def tagsStrOf : Yaml → List Char
  | .list xs => List.intercalate [' '] xs
  | other => pyStr other

/-- One row of the `articles` table. -/
structure Row where
  id : List Char
  title : Yaml
  path : List Char
  author : Yaml
  summary : Yaml
  tags : List Char
  meta_json : List Char
deriving DecidableEq, Repr

/-- One row of the `article_index` FTS table. -/
structure FtsRow where
  content : List Char
  title : Yaml
  summary : Yaml
  tags : List Char
  id : List Char
deriving DecidableEq, Repr

structure DB where
  articles : List Row
  fts : List FtsRow
deriving DecidableEq, Repr

def articleRowOf (yload : YLoader) (f : FileInput) : Row :=
  let d := mdOf yload f
  { id := articleIdOf yload f
    title := d.title
    path := relPathOf f
    author := d.author
    summary := d.summary
    tags := tagsJsonOf d.tags
    meta_json := jsonOfMeta d.meta }

def ftsRowOf (yload : YLoader) (f : FileInput) : FtsRow :=
  let d := mdOf yload f
  { content := d.content
    title := d.title
    summary := d.summary
    tags := tagsStrOf d.tags
    id := articleIdOf yload f }

/-- Plain `INSERT` against `id TEXT PRIMARY KEY`: a duplicate id raises
`sqlite3.IntegrityError` (modelled as `.error ()`). -/
def insertArticle (db : DB) (r : Row) : Except Unit DB :=
  if db.articles.any (fun x => x.id == r.id) then .error ()
  else .ok { db with articles := db.articles ++ [r] }

/-- The FTS insert has no uniqueness constraint. -/
def insertFts (db : DB) (r : FtsRow) : DB :=
  { db with fts := db.fts ++ [r] }

/-- Per-file body of the main loop: metadata insert, then full-text insert. -/
def step (yload : YLoader) (db : DB) (f : FileInput) : Except Unit DB :=
  match insertArticle db (articleRowOf yload f) with
  | .ok db1 => .ok (insertFts db1 (ftsRowOf yload f))
  | .error e => .error e

/-- The whole `for md in walk_articles(...)` loop; the `Nat` is `count`. -/
def processFiles (yload : YLoader) : DB → List FileInput → Except Unit (DB × Nat)
  | db, [] => .ok (db, 0)
  | db, f :: fs =>
    match step yload db f with
    | .ok db1 =>
      match processFiles yload db1 fs with
      | .ok (db2, n) => .ok (db2, n + 1)
      | .error e => .error e
    | .error e => .error e

/-- A directory tree under the compendium root. -/
inductive Entry where
  | file (name : List Char) (text : List Char)
  | dir (name : List Char) (entries : List Entry)

/-- `rglob("*.md")`: file name ends in the (case-sensitive) suffix `.md`. -/
def isMdName (n : List Char) : Bool := n.drop (n.length - 3) == ".md".data

/-- `md.name.lower() == "index.md"`. -/
def isIndexMd (n : List Char) : Bool := n.map Char.toLower == "index.md".data

mutual

/-- `walk_articles` on one directory entry, accumulating path components. -/
def walkEntry (pre : List (List Char)) : Entry → List FileInput
  | .file n t => if isMdName n && !isIndexMd n then [⟨pre ++ [n], t⟩] else []
  | .dir n es => walkEntries (pre ++ [n]) es

/-- `walk_articles` on a list of sibling entries. -/
def walkEntries (pre : List (List Char)) : List Entry → List FileInput
  | [] => []
  | e :: es => walkEntry pre e ++ walkEntries pre es

end

/-- Outcome of one invocation of `main`. -/
inductive RunResult where
  | configError
  | crashed
  | success (count : Nat) (db : DB)
deriving DecidableEq, Repr

/-- Model of `main`: `none` stands for a missing root directory, checked
before the store connection is even opened; `crashed` is an uncaught store
error (the duplicate-id `IntegrityError`). -/
def mainRun (yload : YLoader) (root : Option (List Entry)) : RunResult :=
  match root with
  | none => .configError
  | some es =>
    match processFiles yload ⟨[], []⟩ (walkEntries [] es) with
    | .ok (db, n) => .success n db
    | .error _ => .crashed

/-- Process exit status (an uncaught exception also makes Python exit 1). -/
def exitCode : RunResult → Nat
  | .configError => 1
  | .crashed => 1
  | .success _ _ => 0

/-- The store contents an invocation leaves behind, when it commits any. -/
def dbOf : RunResult → Option DB
  | .success _ db => some db
  | _ => none

/-- Model of the output artifact location `out/index.sqlite` (the absolute
prefix depends on where the script lives). -/
def dbPathModel : List Char := "out/index.sqlite".data

/-- `f"Built index with {count} articles at {DB_PATH}"`. -/
def confirmMsg (n : Nat) : List Char :=
  "Built index with ".data ++ (toString n).data ++ " articles at ".data ++ dbPathModel

/-- Leading text of `f"Compendium dir not found: {compendium_dir}"` (the
missing path itself is appended). -/
def diagMsgPre : List Char := "Compendium dir not found: ".data

/-- What the run prints. -/
def stdoutOf : RunResult → Option (List Char)
  | .configError => some diagMsgPre
  | .crashed => none
  | .success n _ => some (confirmMsg n)

/-! ### Helper lemmas -/

theorem articleRowOf_id (yload : YLoader) (f : FileInput) :
    (articleRowOf yload f).id = articleIdOf yload f := rfl

theorem step_ok (yload : YLoader) (db db1 : DB) (f : FileInput)
    (h : step yload db f = .ok db1) :
    db1.articles = db.articles ++ [articleRowOf yload f] ∧
    db1.fts = db.fts ++ [ftsRowOf yload f] ∧
    db.articles.any (fun x => x.id == (articleRowOf yload f).id) = false := by
  unfold step insertArticle at h
  by_cases hc : db.articles.any (fun x => x.id == (articleRowOf yload f).id) = true
  · simp [hc] at h
  · simp only [Bool.not_eq_true] at hc
    simp [hc, insertFts] at h
    subst h
    exact ⟨rfl, rfl, hc⟩

theorem step_err (yload : YLoader) (db : DB) (f : FileInput)
    (h : db.articles.any (fun x => x.id == (articleRowOf yload f).id) = true) :
    step yload db f = .error () := by
  unfold step insertArticle
  simp [h]

theorem processFiles_ok (yload : YLoader) :
    ∀ (files : List FileInput) (db db' : DB) (n : Nat),
      processFiles yload db files = .ok (db', n) →
      db'.articles = db.articles ++ files.map (articleRowOf yload) ∧
      db'.fts = db.fts ++ files.map (ftsRowOf yload) ∧ n = files.length := by
  intro files
  induction files with
  | nil =>
    intro db db' n h
    simp [processFiles] at h
    simp [h.1, h.2]
  | cons f fs ih =>
    intro db db' n h
    unfold processFiles at h
    split at h
    · rename_i db1 hs
      split at h
      · rename_i db2 m hp
        simp only [Except.ok.injEq, Prod.mk.injEq] at h
        obtain ⟨h1, h2⟩ := h
        subst h1; subst h2
        obtain ⟨ha, hf, hn⟩ := ih db1 db2 m hp
        obtain ⟨sa, sf, _⟩ := step_ok yload db db1 f hs
        refine ⟨?_, ?_, ?_⟩
        · rw [ha, sa]; simp
        · rw [hf, sf]; simp
        · simp [hn]
      · exact absurd h (by simp)
    · exact absurd h (by simp)

theorem processFiles_err_of_dup (yload : YLoader) :
    ∀ (files : List FileInput) (db : DB),
      (¬ (files.map (articleIdOf yload)).Nodup ∨
        ∃ r ∈ db.articles, r.id ∈ files.map (articleIdOf yload)) →
      processFiles yload db files = .error () := by
  intro files
  induction files with
  | nil =>
    intro db h
    rcases h with h | ⟨r, _, hr⟩
    · exact absurd List.nodup_nil h
    · simp at hr
  | cons f fs ih =>
    intro db h
    by_cases hc : db.articles.any (fun x => x.id == (articleRowOf yload f).id) = true
    · unfold processFiles
      rw [step_err yload db f hc]
    · simp only [Bool.not_eq_true] at hc
      have hstep : step yload db f =
          .ok (insertFts { db with articles := db.articles ++ [articleRowOf yload f] }
                (ftsRowOf yload f)) := by
        unfold step insertArticle
        simp [hc]
      have hnomem : articleIdOf yload f ∉ db.articles.map Row.id := by
        intro hmem
        rw [List.any_eq_false] at hc
        obtain ⟨r, hr, hid⟩ := List.mem_map.mp hmem
        exact hc r hr (by simp [articleRowOf_id, hid])
      set db1 := insertFts { db with articles := db.articles ++ [articleRowOf yload f] }
                (ftsRowOf yload f) with hdb1
      have hdb1a : db1.articles = db.articles ++ [articleRowOf yload f] := rfl
      have hrec : processFiles yload db1 fs = .error () := by
        apply ih db1
        rcases h with hnd | ⟨r, hrmem, hrid⟩
        · rw [List.map_cons, List.nodup_cons] at hnd
          push_neg at hnd
          by_cases hin : articleIdOf yload f ∈ fs.map (articleIdOf yload)
          · right
            refine ⟨articleRowOf yload f, ?_, ?_⟩
            · rw [hdb1a]; simp
            · rw [articleRowOf_id]; exact hin
          · left
            intro hnodup
            exact absurd (hnd hin) (by simp [hnodup])
        · rw [List.map_cons, List.mem_cons] at hrid
          rcases hrid with hrid | hrid
          · exfalso
            apply hnomem
            rw [← hrid]
            exact List.mem_map.mpr ⟨r, hrmem, rfl⟩
          · right
            refine ⟨r, ?_, hrid⟩
            rw [hdb1a]; exact List.mem_append_left _ hrmem
      unfold processFiles
      rw [hstep]
      simp [hrec]

mutual

theorem walkEntry_no_index (f : FileInput) (pre : List (List Char)) :
    ∀ e : Entry, f ∈ walkEntry pre e → isIndexMd (fileNameOf f) = false
  | .file n t => by
    intro hf
    unfold walkEntry at hf
    split at hf
    · rename_i hguard
      simp only [List.mem_singleton] at hf
      subst hf
      have hname : fileNameOf ⟨pre ++ [n], t⟩ = n := by
        simp [fileNameOf]
      rw [hname]
      simp only [Bool.and_eq_true, Bool.not_eq_true'] at hguard
      exact hguard.2
    · simp at hf
  | .dir n es => by
    intro hf
    exact walkEntries_no_index f (pre ++ [n]) es hf

theorem walkEntries_no_index (f : FileInput) (pre : List (List Char)) :
    ∀ es : List Entry, f ∈ walkEntries pre es → isIndexMd (fileNameOf f) = false
  | [] => by intro hf; simp [walkEntries] at hf
  | e :: es => by
    intro hf
    unfold walkEntries at hf
    rcases List.mem_append.mp hf with hl | hr
    · exact walkEntry_no_index f pre e hl
    · exact walkEntries_no_index f pre es hr

end

theorem searchNl_spec (s : List Char) :
    ∀ b k, searchNl s b = some k → k ≤ b ∧ s.get? k = some '\n' := by
  intro b
  induction b with
  | zero =>
    intro k h
    unfold searchNl at h
    split at h
    · rename_i hg
      simp only [Option.some.injEq] at h
      subst h
      exact ⟨Nat.le_refl 0, hg⟩
    · simp at h
  | succ b ih =>
    intro k h
    unfold searchNl at h
    split at h
    · rename_i hg
      simp only [Option.some.injEq] at h
      subst h
      exact ⟨Nat.le_refl _, hg⟩
    · obtain ⟨hk, hg⟩ := ih k h
      exact ⟨Nat.le_succ_of_le hk, hg⟩

theorem take_all_ws_of_le_wsLen :
    ∀ (s : List Char) (k : Nat), k ≤ wsLen s → (s.take k).all pyWs = true := by
  intro s
  induction s with
  | nil => intro k _; simp
  | cons c cs ih =>
    intro k hk
    unfold wsLen at hk
    split at hk
    · rename_i hws
      cases k with
      | zero => simp
      | succ k =>
        simp only [List.take_succ_cons, List.all_cons, Bool.and_eq_true]
        exact And.intro hws (ih k (Nat.le_of_succ_le_succ hk))
    · interval_cases k
      simp

theorem get?_decomp (s : List Char) (k : Nat) (c : Char) (h : s.get? k = some c) :
    s = s.take k ++ c :: s.drop (k + 1) := by
  obtain ⟨hlt, he⟩ := List.get?_eq_some.mp h
  have hd : s[k] :: s.drop (k + 1) = s.drop k := List.getElem_cons_drop s k hlt
  have := List.take_append_drop k s
  rw [← hd] at this
  simp only [List.get_eq_getElem] at he
  rw [he] at this
  exact this.symm

theorem tryClose_spec (r : List Char) (rem : List Char) (h : tryClose r = some rem) :
    ∃ w : List Char, w.all pyWs = true ∧ r = w ++ '\n' :: rem := by
  unfold tryClose at h
  split at h
  · rename_i b hb
    simp only [Option.some.injEq] at h
    obtain ⟨hble, hbnl⟩ := searchNl_spec r (wsLen r) b hb
    refine ⟨r.take b, take_all_ws_of_le_wsLen r b hble, ?_⟩
    rw [← h]
    exact get?_decomp r b '\n' hbnl
  · simp at h

theorem findClose_spec :
    ∀ (s g rem : List Char), findClose s = some (g, rem) →
      ∃ B : List Char, B.all pyWs = true ∧ s = g ++ nlClose ++ B ++ '\n' :: rem := by
  intro s
  induction s with
  | nil => intro g rem h; simp [findClose] at h
  | cons c cs ih =>
    intro g rem h
    unfold findClose at h
    split at h
    · rename_i rem' hrem'
      simp only [Option.some.injEq, Prod.mk.injEq] at h
      obtain ⟨hg, hr⟩ := h
      subst hg; subst hr
      split at hrem'
      · rename_i htake
        obtain ⟨w, hwws, hw⟩ := tryClose_spec _ _ hrem'
        refine ⟨w, hwws, ?_⟩
        have hsplit : c :: cs = (c :: cs).take 4 ++ (c :: cs).drop 4 :=
          (List.take_append_drop 4 (c :: cs)).symm
        rw [htake, hw] at hsplit
        simpa using hsplit
      · simp at hrem'
    · rename_i hnotclose
      split at h
      · rename_i g' rem' hrec
        simp only [Option.some.injEq, Prod.mk.injEq] at h
        obtain ⟨hg, hr⟩ := h
        subst hg; subst hr
        obtain ⟨B, hBws, hB⟩ := ih g' rem' hrec
        exact ⟨B, hBws, by simp [hB]⟩
      · simp at h

theorem openAux_spec (s : List Char) :
    ∀ (a : Nat) (g rem : List Char), openAux s a = some (g, rem) →
      ∃ k, k ≤ a ∧ s.get? k = some '\n' ∧ findClose (s.drop (k + 1)) = some (g, rem) := by
  intro a
  induction a with
  | zero =>
    intro g rem h
    unfold openAux at h
    split at h
    · rename_i hg
      exact ⟨0, Nat.le_refl 0, hg, h⟩
    · simp at h
  | succ a ih =>
    intro g rem h
    unfold openAux at h
    split at h
    · rename_i r hr
      split at hr
      · rename_i hg
        simp only [Option.some.injEq] at h
        subst h
        exact ⟨a + 2 - 1, by omega, by simpa using hg, by simpa using hr⟩
      · simp at hr
    · obtain ⟨k, hk, hg, hf⟩ := ih g rem h
      exact ⟨k, Nat.le_succ_of_le hk, hg, hf⟩

/-- Every successful match of the front-matter pattern decomposes the text as
`--- A \n g \n--- B \n rem` with `A`, `B` whitespace: the shape of
`r"^---\s*\n(.*?)\n---\s*\n"`. -/
theorem fmMatch_decomp (text g rem : List Char) (h : fmMatch text = some (g, rem)) :
    ∃ A B : List Char, A.all pyWs = true ∧ B.all pyWs = true ∧
      text = dashes3 ++ A ++ '\n' :: (g ++ nlClose ++ B ++ '\n' :: rem) := by
  unfold fmMatch at h
  split at h
  · rename_i htake
    obtain ⟨k, hk, hnl, hf⟩ := openAux_spec (text.drop 3) _ g rem h
    obtain ⟨B, hBws, hB⟩ := findClose_spec _ g rem hf
    refine ⟨(text.drop 3).take k, B, take_all_ws_of_le_wsLen _ k hk, hBws, ?_⟩
    have hd : text.drop 3 = (text.drop 3).take k ++ '\n' :: (text.drop 3).drop (k + 1) :=
      get?_decomp (text.drop 3) k '\n' hnl
    rw [hB] at hd
    have hsplit : text = text.take 3 ++ text.drop 3 := (List.take_append_drop 3 text).symm
    rw [htake, hd] at hsplit
    simpa using hsplit
  · simp at h

/-- The text begins with an opening front-matter marker line: `---` at the
very start followed, within its whitespace run, by a newline — exactly what
`^---\s*\n` needs to match. -/
def hasOpenMarker (text : List Char) : Bool :=
  (text.take 3 == dashes3) && ((text.drop 3).take (wsLen (text.drop 3))).contains '\n'

theorem wsLen_get_not_ws :
    ∀ (s : List Char) (c : Char), s.get? (wsLen s) = some c → pyWs c = false := by
  intro s
  induction s with
  | nil => intro c h; simp at h
  | cons a as ih =>
    intro c h
    unfold wsLen at h
    split at h
    · rw [List.get?_cons_succ] at h
      exact ih c h
    · rename_i hws
      rw [List.get?_cons_zero, Option.some.injEq] at h
      subst h
      simpa using hws

theorem openAux_none (s : List Char) (hno : ¬ '\n' ∈ s.take (wsLen s)) :
    ∀ a, a ≤ wsLen s → openAux s a = none := by
  have hget : ∀ a, a ≤ wsLen s → s.get? a ≠ some '\n' := by
    intro a ha hcontra
    rcases Nat.lt_or_ge a (wsLen s) with hlt | hge
    · apply hno
      have h2 : (s.take (wsLen s))[a]? = s[a]? := List.getElem?_take_of_lt hlt
      rw [← List.get?_eq_getElem?, ← List.get?_eq_getElem?] at h2
      exact List.get?_mem (h2.trans hcontra)
    · have ha' : a = wsLen s := Nat.le_antisymm ha hge
      subst ha'
      have := wsLen_get_not_ws s '\n' hcontra
      simp [pyWs] at this
  intro a
  induction a with
  | zero =>
    intro ha
    unfold openAux
    rw [if_neg (hget 0 ha)]
  | succ a ih =>
    intro ha
    unfold openAux
    rw [if_neg (hget (a + 1) ha)]
    exact ih (Nat.le_of_succ_le ha)

/-- Completeness direction for the anchored pattern: a text with no opening
marker line never matches. -/
theorem fmMatch_none_of_no_marker (text : List Char) (h : hasOpenMarker text = false) :
    fmMatch text = none := by
  unfold hasOpenMarker at h
  unfold fmMatch
  rw [Bool.and_eq_false_iff] at h
  rcases h with h | h
  · rw [if_neg (by simpa using h)]
  · by_cases htake : text.take 3 = dashes3
    · rw [if_pos htake]
      apply openAux_none
      · intro hmem
        rw [List.contains_eq_any_beq] at h
        rw [List.any_eq_false] at h
        exact absurd (by simp : ('\n' == '\n') = true) (by simpa using h '\n' hmem)
      · exact Nat.le_refl _
    · rw [if_neg htake]

theorem metaGet_of_lookup (m : Meta) (k : List Char) (d v : Yaml)
    (h : lookupMeta m k = some v) : metaGet m k d = v := by
  simp [metaGet, h]

/-- Removal of a key from the mapping, for stating "as if the field were
absent". -/
def eraseKey (m : Meta) (k : List Char) : Meta :=
  m.filter (fun p => !(p.1 == k))

theorem lookup_eraseKey (m : Meta) (k : List Char) :
    lookupMeta (eraseKey m k) k = none := by
  induction m with
  | nil => rfl
  | cons p ps ih =>
    by_cases hp : p.1 == k
    · simpa [eraseKey, List.filter_cons, hp] using ih
    · simp only [Bool.not_eq_true] at hp
      simp [eraseKey, lookupMeta, List.filter_cons, List.find?_cons, hp]

theorem truthy_false_of_null_or_empty (v : Yaml) (h : v = .null ∨ v = .str []) :
    truthy v = false := by
  rcases h with h | h <;> subst h <;> rfl

/-! ### Claim theorems -/

/-- C2 (amended): the resolved title follows the fallback chain, where a
front-matter `title` short-circuits it only when its value is truthy
(non-empty, non-null): a truthy value is returned regardless of body
headings; otherwise the first `"# "`-marked body line's stripped text is
returned; and failing that, the filename stem. -/
theorem claim2_title_fallback (meta : Meta) (stem content : List Char) :
    (∀ v, lookupMeta meta titleKey = some v → truthy v = true →
      resolveTitle meta stem content = v)
  ∧ (truthy (metaGet meta titleKey .null) = false →
      (∀ h, findH1 (splitlines content) = some h →
        resolveTitle meta stem content = .str h)
      ∧ (findH1 (splitlines content) = none →
        resolveTitle meta stem content = .str stem)) := by
  constructor
  · intro v hv ht
    simp [resolveTitle, metaGet, hv, ht]
  · intro hfalse
    constructor
    · intro h hh
      simp [resolveTitle, hfalse, hh]
    · intro hnone
      simp [resolveTitle, hfalse, hnone]

/-- C2 counterexample: a front-matter `title` field is present with value
`""`, yet the resolver returns the body heading `"B"`, not the field's
value — so "its value is returned regardless of any body headings" fails. -/
theorem claim2_counterexample :
    lookupMeta [(titleKey, Yaml.str [])] titleKey = some (Yaml.str []) ∧
    resolveTitle [(titleKey, Yaml.str [])] ("s".data) ("# B\nrest".data) =
      Yaml.str ("B".data) ∧
    Yaml.str ("B".data) ≠ Yaml.str [] := by
  refine ⟨by decide, by decide, by decide⟩

/-- C2 witness: a truthy front-matter title `"A"` wins over the body heading
`"B"`. -/
theorem claim2_witness :
    resolveTitle [(titleKey, Yaml.str ("A".data))] ("s".data) ("# B\n".data) =
      Yaml.str ("A".data) :=
  (claim2_title_fallback [(titleKey, Yaml.str ("A".data))] ("s".data)
    ("# B\n".data)).1 (Yaml.str ("A".data)) (by decide) (by decide)

/-- C5 (amended): the stored article id is the string form of the
front-matter id when a truthy (non-empty, non-null) one is given, regardless
of the file's path; otherwise it is the file's root-relative posix path. -/
theorem claim5_id_fallback (yload : YLoader) (f : FileInput) :
    (∀ v, lookupMeta (parse_frontmatter yload f.text).1 idKey = some v →
      truthy v = true → (articleRowOf yload f).id = pyStr v)
  ∧ (truthy (metaGet (parse_frontmatter yload f.text).1 idKey .null) = false →
      (articleRowOf yload f).id = relPathOf f) := by
  constructor
  · intro v hv ht
    show articleIdOf yload f = pyStr v
    simp [articleIdOf, mdOf, read_markdown, articleIdFun, metaGet, hv, ht]
  · intro hfalse
    show articleIdOf yload f = relPathOf f
    simp [articleIdOf, mdOf, read_markdown, articleIdFun, hfalse, pyStr]

def yEmptyId : YLoader := fun s =>
  if s == "id: \"\"".data then some (some [(idKey, Yaml.str [])]) else none

def cexIdFile : FileInput := ⟨["a.md".data], "---\nid: \"\"\n---\nx".data⟩

/-- C5 counterexample: a file whose front matter gives `id: ""` — an id is
given, yet the stored id is the relative path `"a.md"`, not the given id. -/
theorem claim5_counterexample :
    lookupMeta (parse_frontmatter yEmptyId cexIdFile.text).1 idKey =
      some (Yaml.str []) ∧
    (articleRowOf yEmptyId cexIdFile).id = "a.md".data ∧
    "a.md".data ≠ ([] : List Char) := by
  refine ⟨by decide, by decide, by decide⟩

def yIdB : YLoader := fun s =>
  if s == "id: b1".data then some (some [(idKey, Yaml.str ("b1".data))]) else none

def fIdB : FileInput := ⟨["sub".data, "b.md".data], "---\nid: b1\n---\nc".data⟩

/-- C5 witness: front-matter `id: b1` is stored verbatim even for a file
nested under `sub/`. -/
theorem claim5_witness :
    (articleRowOf yIdB fIdB).id = pyStr (Yaml.str ("b1".data)) :=
  (claim5_id_fallback yIdB fIdB).1 (Yaml.str ("b1".data)) (by decide) (by decide)

/-- C7: a document whose metadata lacks `author` (resp. `summary`) gets the
empty string — never null — in the returned dictionary and in the stored
rows. -/
theorem claim7_author_summary_defaults (yload : YLoader) (f : FileInput) :
    (lookupMeta (parse_frontmatter yload f.text).1 authorKey = none →
      (articleRowOf yload f).author = .str [] ∧ (mdOf yload f).author = .str [])
  ∧ (lookupMeta (parse_frontmatter yload f.text).1 summaryKey = none →
      (articleRowOf yload f).summary = .str [] ∧
      (ftsRowOf yload f).summary = .str []) := by
  constructor
  · intro h
    constructor
    · show (mdOf yload f).author = Yaml.str []
      unfold mdOf read_markdown
      simp [metaGet, h]
    · unfold mdOf read_markdown
      simp [metaGet, h]
  · intro h
    constructor
    · show (mdOf yload f).summary = Yaml.str []
      unfold mdOf read_markdown
      simp [metaGet, h]
    · show (mdOf yload f).summary = Yaml.str []
      unfold mdOf read_markdown
      simp [metaGet, h]

def yNone : YLoader := fun _ => none

def fPlain : FileInput := ⟨["a.md".data], "hello".data⟩

/-- C7 witness: a document with no front matter stores empty-string author
and summary. -/
theorem claim7_witness :
    ((articleRowOf yNone fPlain).author = .str [] ∧
      (mdOf yNone fPlain).author = .str []) ∧
    ((articleRowOf yNone fPlain).summary = .str [] ∧
      (ftsRowOf yNone fPlain).summary = .str []) :=
  ⟨(claim7_author_summary_defaults yNone fPlain).1 (by decide),
   (claim7_author_summary_defaults yNone fPlain).2 (by decide)⟩

/-- C10: a front-matter `title` or `id` whose value is empty or null is
treated exactly as if the field were absent: the title resolves as it would
with the field erased from the mapping, and the id falls back to the
root-relative path; the empty/null value itself is never stored. -/
theorem claim10_empty_null_as_absent (meta : Meta) (stem content rel : List Char) :
    (∀ v, lookupMeta meta titleKey = some v → (v = .null ∨ v = .str []) →
      resolveTitle meta stem content = resolveTitle (eraseKey meta titleKey) stem content)
  ∧ (∀ v, lookupMeta meta idKey = some v → (v = .null ∨ v = .str []) →
      articleIdFun (metaGet meta idKey .null) rel = rel) := by
  constructor
  · intro v hv hve
    have ht : truthy v = false := truthy_false_of_null_or_empty v hve
    have he : metaGet (eraseKey meta titleKey) titleKey .null = .null := by
      simp [metaGet, lookup_eraseKey]
    rw [resolveTitle, resolveTitle, metaGet_of_lookup meta titleKey .null v hv, he]
    simp [ht, show truthy Yaml.null = false from rfl]
  · intro v hv hve
    have ht : truthy v = false := truthy_false_of_null_or_empty v hve
    rw [articleIdFun, metaGet_of_lookup meta idKey .null v hv]
    simp [ht, pyStr]

def cexMeta10 : Meta := [(titleKey, Yaml.null), (idKey, Yaml.str [])]

/-- C10 witness: with `title: null` and `id: ""`, the title resolves as with
no title field at all, and the id falls back to the relative path. -/
theorem claim10_witness :
    resolveTitle cexMeta10 ("s".data) ("# B\n".data) =
      resolveTitle (eraseKey cexMeta10 titleKey) ("s".data) ("# B\n".data) ∧
    articleIdFun (metaGet cexMeta10 idKey .null) ("a.md".data) = "a.md".data :=
  ⟨(claim10_empty_null_as_absent cexMeta10 ("s".data) ("# B\n".data) ("a.md".data)).1
      Yaml.null (by decide) (Or.inl rfl),
   (claim10_empty_null_as_absent cexMeta10 ("s".data) ("# B\n".data) ("a.md".data)).2
      (Yaml.str []) (by decide) (Or.inr rfl)⟩

/-- C3 (amended): list-valued tags are stored as the serialized (JSON) list
in the metadata row and as the whitespace-joined string in the full-text row;
a non-sequence tags value has its string representation used as the joined
form, while the metadata row receives the JSON serialization of the raw
value itself (or `"[]"` when the value is falsy) — not a serialized
sequence. -/
theorem claim3_tags_normalization (yload : YLoader) (f : FileInput) :
    (∀ xs, (mdOf yload f).tags = .list xs →
      (articleRowOf yload f).tags = jsonDumps (.list xs) ∧
      (ftsRowOf yload f).tags = List.intercalate [' '] xs)
  ∧ (∀ v, (mdOf yload f).tags = v → (∀ xs, v ≠ .list xs) →
      (ftsRowOf yload f).tags = pyStr v ∧
      (truthy v = true → (articleRowOf yload f).tags = jsonDumps v) ∧
      (truthy v = false → (articleRowOf yload f).tags = "[]".data)) := by
  constructor
  · intro xs hxs
    constructor
    · show tagsJsonOf (mdOf yload f).tags = jsonDumps (.list xs)
      rw [hxs]
      cases xs with
      | nil => decide
      | cons x xt => simp [tagsJsonOf, truthy]
    · show tagsStrOf (mdOf yload f).tags = List.intercalate [' '] xs
      rw [hxs]
      rfl
  · intro v hv hnl
    refine ⟨?_, ?_, ?_⟩
    · show tagsStrOf (mdOf yload f).tags = pyStr v
      rw [hv]
      cases v with
      | list xs => exact absurd rfl (hnl xs)
      | null => rfl
      | str s => rfl
      | int n => rfl
    · intro ht
      show tagsJsonOf (mdOf yload f).tags = jsonDumps v
      rw [hv]
      simp [tagsJsonOf, ht]
    · intro ht
      show tagsJsonOf (mdOf yload f).tags = "[]".data
      rw [hv]
      simp [tagsJsonOf, ht]

def yTagsStr : YLoader := fun s =>
  if s == "tags: foo".data then some (some [(tagsKey, Yaml.str ("foo".data))])
  else none

def fTagsStr : FileInput := ⟨["t.md".data], "---\ntags: foo\n---\nbody".data⟩

/-- C3 counterexample: with `tags: foo` (not a sequence) the metadata row
stores the JSON string `"foo"` — which starts with a quote, not the `[` every
serialized sequence starts with — so the tags value is not "normalized to a
sequence of strings in serialized form" for storage. -/
theorem claim3_counterexample :
    (mdOf yTagsStr fTagsStr).tags = Yaml.str ("foo".data) ∧
    (articleRowOf yTagsStr fTagsStr).tags = "\"foo\"".data ∧
    ("\"foo\"".data).take 1 ≠ "[".data := by
  refine ⟨by decide, by decide, by decide⟩

def yTagsList : YLoader := fun s =>
  if s == "tags: [x, y]".data then
    some (some [(tagsKey, Yaml.list ["x".data, "y".data])])
  else none

def fTagsList : FileInput := ⟨["t.md".data], "---\ntags: [x, y]\n---\nbody".data⟩

/-- C3 witness: `tags: [x, y]` is stored as the JSON list in the metadata row
and as `"x y"` in the full-text row; `tags: foo` yields the string form
`"foo"` as the joined full-text value. -/
theorem claim3_witness :
    ((articleRowOf yTagsList fTagsList).tags =
        jsonDumps (.list ["x".data, "y".data]) ∧
      (ftsRowOf yTagsList fTagsList).tags =
        List.intercalate [' '] ["x".data, "y".data]) ∧
    (ftsRowOf yTagsStr fTagsStr).tags = pyStr (Yaml.str ("foo".data)) :=
  ⟨(claim3_tags_normalization yTagsList fTagsList).1 ["x".data, "y".data] (by decide),
   ((claim3_tags_normalization yTagsStr fTagsStr).2 (Yaml.str ("foo".data))
      (by decide) (fun xs h => by cases h)).1⟩

/-- C4: an input text with no leading front-matter marker line, or whose
matched block fails YAML parsing, yields an empty metadata mapping and a body
equal to the entire original text, character for character (the delimiters
are not stripped in the failure case). -/
theorem claim4_parse_failure_identity (yload : YLoader) (text : List Char)
    (h : hasOpenMarker text = false ∨
      ∃ g rem, fmMatch text = some (g, rem) ∧ yload g = none) :
    parse_frontmatter yload text = ([], text) := by
  rcases h with h | ⟨g, rem, hm, hy⟩
  · unfold parse_frontmatter
    rw [fmMatch_none_of_no_marker text h]
  · simp [parse_frontmatter, hm, hy]

def yAlwaysFail : YLoader := fun _ => none

/-- C4 witness: both failure modes on concrete inputs — a text with no
marker, and a marked text whose block the loader rejects. -/
theorem claim4_witness :
    parse_frontmatter yAlwaysFail ("# just a doc\nbody".data) =
      ([], "# just a doc\nbody".data) ∧
    parse_frontmatter yAlwaysFail ("---\n: : bad\n---\nbody".data) =
      ([], "---\n: : bad\n---\nbody".data) :=
  ⟨claim4_parse_failure_identity yAlwaysFail ("# just a doc\nbody".data)
      (Or.inl (by decide)),
   claim4_parse_failure_identity yAlwaysFail ("---\n: : bad\n---\nbody".data)
      (Or.inr ⟨": : bad".data, "body".data, by decide, rfl⟩)⟩

/-- The pattern `pat` occurs in `t` at position `i`. -/
def occursAt (t : List Char) (i : Nat) (pat : List Char) : Prop :=
  (t.drop i).take pat.length = pat

instance (t : List Char) (i : Nat) (pat : List Char) : Decidable (occursAt t i pat) :=
  inferInstanceAs (Decidable (_ = _))

/-- A document of the shape `---\n Y \n---`: opening marker line, block `Y`,
closing marker as the final line with no trailing newline. -/
def fmDoc (Y : List Char) : List Char := dashes3 ++ '\n' :: Y ++ nlClose

/-- C9: a document that begins with the opening marker and carries a
well-formed metadata block, but whose closing `---` is the final line with no
trailing newline (the final `\n---` being the only occurrence of that
string), is not recognized: the parser returns an empty mapping and the whole
original text, because the closing marker must be followed by a newline to
match. -/
theorem claim9_closing_marker_needs_newline (yload : YLoader) (Y : List Char)
    (m : Meta) (_hwf : yload Y = some (some m))
    (honly : ∀ i < (fmDoc Y).length, occursAt (fmDoc Y) i nlClose →
      i + 4 = (fmDoc Y).length) :
    parse_frontmatter yload (fmDoc Y) = ([], fmDoc Y) := by
  cases hm : fmMatch (fmDoc Y) with
  | none =>
    unfold parse_frontmatter
    rw [hm]
  | some p =>
    exfalso
    obtain ⟨g, rem⟩ := p
    obtain ⟨A, B, _, _, hT⟩ := fmMatch_decomp (fmDoc Y) g rem hm
    have htext : fmDoc Y =
        (dashes3 ++ A ++ '\n' :: g) ++ (nlClose ++ B ++ '\n' :: rem) := by
      rw [hT]; simp
    have hocc : occursAt (fmDoc Y) (dashes3 ++ A ++ '\n' :: g).length nlClose := by
      unfold occursAt
      rw [htext, List.drop_left]
      have h2 : nlClose ++ B ++ '\n' :: rem = nlClose ++ (B ++ '\n' :: rem) := by simp
      rw [h2]
      exact List.take_left nlClose (B ++ '\n' :: rem)
    have hlen : (fmDoc Y).length =
        (dashes3 ++ A ++ '\n' :: g).length + (4 + (B.length + (1 + rem.length))) := by
      rw [htext]
      simp [nlClose, dashes3]
      omega
    have hlt : (dashes3 ++ A ++ '\n' :: g).length < (fmDoc Y).length := by omega
    have := honly _ hlt hocc
    omega

def yTitleX : YLoader := fun s =>
  if s == "title: x".data then some (some [(titleKey, Yaml.str ("x".data))])
  else none

/-- C9 witness: `---\ntitle: x\n---` (no trailing newline) parses to empty
metadata with the whole text as body, although the loader accepts the block. -/
theorem claim9_witness :
    parse_frontmatter yTitleX (fmDoc ("title: x".data)) =
      ([], fmDoc ("title: x".data)) :=
  claim9_closing_marker_needs_newline yTitleX ("title: x".data)
    [(titleKey, Yaml.str ("x".data))] (by decide) (by decide)

/-- C1 (amended): a later file resolving to the same article id as an earlier
one violates the metadata table's primary-key constraint: the plain INSERT
raises, the run aborts without committing, and no last-write-wins overwrite
(and no pair of duplicate full-text rows) is produced. -/
theorem claim1_duplicate_id_aborts (yload : YLoader) (es : List Entry)
    (h : ¬ ((walkEntries [] es).map (articleIdOf yload)).Nodup) :
    mainRun yload (some es) = .crashed := by
  have herr := processFiles_err_of_dup yload (walkEntries [] es) ⟨[], []⟩ (Or.inl h)
  simp [mainRun, herr]

def yIdX : YLoader := fun s =>
  if s == "id: x".data then some (some [(idKey, Yaml.str ("x".data))]) else none

def dupTree : List Entry :=
  [.file ("a.md".data) ("---\nid: x\n---\na".data),
   .file ("b.md".data) ("---\nid: x\n---\nb".data)]

/-- C1 counterexample: two files whose front matter both give `id: x`.  The
run crashes with no store contents at all — the later article neither
overwrites the earlier metadata row nor adds a second full-text entry, so
neither full-text row is "present after the run". -/
theorem claim1_counterexample :
    mainRun yIdX (some dupTree) = RunResult.crashed ∧
    dbOf (mainRun yIdX (some dupTree)) = none := by
  refine ⟨by decide, by decide⟩

/-- C1 witness: the amended statement applied to the concrete colliding
tree. -/
theorem claim1_witness : mainRun yIdX (some dupTree) = .crashed :=
  claim1_duplicate_id_aborts yIdX dupTree (by decide)

/-- C6: a missing root directory makes the run exit 1 with a diagnostic
message and no store contents (the existence check precedes the store
connection); a run that does not crash exits 0 and prints the
count-of-articles confirmation message, the count being the number of walked
files. -/
theorem claim6_process_contract (yload : YLoader) :
    (mainRun yload none = .configError ∧
      exitCode (mainRun yload none) = 1 ∧
      dbOf (mainRun yload none) = none ∧
      stdoutOf (mainRun yload none) = some diagMsgPre)
  ∧ (∀ es, mainRun yload (some es) ≠ .crashed →
      exitCode (mainRun yload (some es)) = 0 ∧
      stdoutOf (mainRun yload (some es)) =
        some (confirmMsg ((walkEntries [] es).length))) := by
  refine ⟨⟨rfl, rfl, rfl, rfl⟩, ?_⟩
  intro es h
  have hm : mainRun yload (some es) =
      (match processFiles yload ⟨[], []⟩ (walkEntries [] es) with
        | .ok (db, n) => RunResult.success n db
        | .error _ => RunResult.crashed) := rfl
  rw [hm] at h ⊢
  cases hp : processFiles yload ⟨[], []⟩ (walkEntries [] es) with
  | error e =>
    rw [hp] at h
    exact absurd rfl h
  | ok p =>
    obtain ⟨db, n⟩ := p
    obtain ⟨_, _, hn⟩ := processFiles_ok yload (walkEntries [] es) ⟨[], []⟩ db n hp
    subst hn
    exact ⟨rfl, rfl⟩

def wTree6 : List Entry := [.file ("a.md".data) ("hi".data)]

/-- C6 witness: a one-file tree exits 0 with the one-article message; the
missing-root half is hypothesis-free and instantiated directly. -/
theorem claim6_witness :
    (mainRun yNone none = .configError ∧
      exitCode (mainRun yNone none) = 1 ∧
      dbOf (mainRun yNone none) = none ∧
      stdoutOf (mainRun yNone none) = some diagMsgPre) ∧
    (exitCode (mainRun yNone (some wTree6)) = 0 ∧
      stdoutOf (mainRun yNone (some wTree6)) =
        some (confirmMsg ((walkEntries [] wTree6).length))) :=
  ⟨(claim6_process_contract yNone).1,
   (claim6_process_contract yNone).2 wTree6 (by decide)⟩

/-- C8: in a successful run, every metadata row and every full-text row comes
from a walked file, and no walked file — hence no row of either table — is
named `index.md` in any letter case, at any depth. -/
theorem claim8_index_md_excluded (yload : YLoader) (es : List Entry)
    (n : Nat) (db : DB) (h : mainRun yload (some es) = .success n db) :
    (∀ r ∈ db.articles, ∃ f, f ∈ walkEntries [] es ∧
      isIndexMd (fileNameOf f) = false ∧ r = articleRowOf yload f)
  ∧ (∀ fr ∈ db.fts, ∃ f, f ∈ walkEntries [] es ∧
      isIndexMd (fileNameOf f) = false ∧ fr = ftsRowOf yload f) := by
  have hm : mainRun yload (some es) =
      (match processFiles yload ⟨[], []⟩ (walkEntries [] es) with
        | .ok (db, n) => RunResult.success n db
        | .error _ => RunResult.crashed) := rfl
  rw [hm] at h
  cases hp : processFiles yload ⟨[], []⟩ (walkEntries [] es) with
  | error e => rw [hp] at h; exact absurd h (by simp)
  | ok p =>
    obtain ⟨db', n'⟩ := p
    rw [hp] at h
    simp only [RunResult.success.injEq] at h
    obtain ⟨hn, hdb⟩ := h
    subst hdb
    obtain ⟨ha, hf, _⟩ := processFiles_ok yload (walkEntries [] es) ⟨[], []⟩ db' n' hp
    simp only [List.nil_append] at ha hf
    constructor
    · intro r hr
      rw [ha] at hr
      obtain ⟨f, hfmem, hfr⟩ := List.mem_map.mp hr
      exact ⟨f, hfmem, walkEntries_no_index f [] es hfmem, hfr.symm⟩
    · intro fr hfr
      rw [hf] at hfr
      obtain ⟨f, hfmem, hfr'⟩ := List.mem_map.mp hfr
      exact ⟨f, hfmem, walkEntries_no_index f [] es hfmem, hfr'.symm⟩

def wTree8 : List Entry :=
  [.file ("a.md".data) ("hi".data),
   .file ("INDEX.MD".data) ("zzz".data),
   .dir ("sub".data) [.file ("Index.md".data) ("qqq".data)]]

def wRow8 : Row :=
  ⟨"a.md".data, .str ("a".data), "a.md".data, .str [], .str [], "[]".data,
    [Char.ofNat 123, Char.ofNat 125]⟩

def wDb8 : DB :=
  ⟨[wRow8], [⟨"hi".data, .str ("a".data), .str [], [], "a.md".data⟩]⟩

/-- C8 witness: a tree holding `INDEX.MD` and `sub/Index.md` builds a store
whose single metadata row comes from a walked non-index file. -/
theorem claim8_witness :
    ∃ f, f ∈ walkEntries [] wTree8 ∧ isIndexMd (fileNameOf f) = false ∧
      wRow8 = articleRowOf yNone f :=
  (claim8_index_md_excluded yNone wTree8 1 wDb8 (by decide)).1 wRow8 (by decide)

end BuildIndex
